import Mathlib

set_option maxRecDepth 10000

/-!
Verification of a single convolutional neural-network layer (`conv_layer.py`,
class `ConvLayer`): forward convolution, a naive backward pass
(`conv_backward`), an optimized backward pass (`backward`, einsum plus stride
tricks), and an Adam parameter update (`update_parameters`).

Modelling conventions of the shallow embedding:
* 4-D numpy arrays of float64 become functions `ℕ → ℕ → ℕ → ℕ → ℚ`
  (index order batch, height, width, channel).  Arithmetic is exact: the spec
  speaks of equality up to floating-point tolerance, which the exact model
  realises as equality.  The bias `b` of shape (1,1,1,C) and `db` become
  `ℕ → ℚ` indexed by the channel.
* Strided views (`np.lib.stride_tricks.as_strided`) and `opt_einsum.contract`
  calls are translated into the index arithmetic they perform: each output
  entry is a finite sum over the contracted index ranges, with every array
  access written exactly as the strides dictate.
* In-place accumulation loops over disjoint positions of a freshly zeroed
  buffer are written as the finite sums they compute.
* numpy shape errors (broadcasting / slice-assignment mismatches) make a call
  fail; such calls are modelled with `Option`, `none` meaning the Python call
  raises instead of returning.
* The Adam update uses `np.sqrt`, so it is modelled separately over `ℝ` with
  `Real.sqrt` (the only part of the code that leaves the rationals).

Assumed calling regime (the spec's "prior forward call on the same or
compatible shape"): the cached `X` has spatial shape `(hIn, wIn)` and channel
count `cIn`, the cached `Z` has shape `(m, nH, nW, n_c)`, and a 4-D gradient
`dA` passed to a backward routine has the shape of `Z`.
-/

/-- A 4-dimensional tensor, indexed (batch, height, width, channel). -/
def Tensor4 : Type := ℕ → ℕ → ℕ → ℕ → ℚ

/-- `_deriv_relu`: `np.float64(z > 0)`, the indicator of `z > 0`. -/
def reluDeriv (z : ℚ) : ℚ := if 0 < z then 1 else 0

/-- `np.pad(t, ((0,0),(pad,pad),(pad,pad),(0,0)))` for a tensor whose
spatial extents are `h`, `w`: entry of the padded array at `(a, y, x, r)`.
Out-of-range reads (which real numpy forbids) are modelled as `0`; all
theorems only evaluate padded arrays in range. -/
def padT (t : Tensor4) (h w pad : ℕ) : Tensor4 := fun a y x r =>
  if pad ≤ y ∧ y < pad + h ∧ pad ≤ x ∧ x < pad + w then
    t a (y - pad) (x - pad) r
  else 0

/-- The `activation` constructor argument: the string `'relu'` or `'none'`. -/
inductive Activation where
  | relu : Activation
  | none : Activation
deriving DecidableEq

/-- The mutable state of a `ConvLayer` instance (the instance fields that the
claims touch).  `m0/hIn/wIn/cIn` is `dim_in` from construction;
`dimOutH/dimOutW` are the spatial entries of the stored `dim_out`;
`m/nH/nW` is the current shape of the cached `Z` (set by `forward`). -/
structure ConvLayer where
  m0 : ℕ
  hIn : ℕ
  wIn : ℕ
  cIn : ℕ
  f : ℕ
  n_c : ℕ
  stride : ℕ
  pad : ℕ
  dimOutH : ℕ
  dimOutW : ℕ
  activation : Activation
  lamb : ℚ
  m : ℕ
  nH : ℕ
  nW : ℕ
  X : Tensor4
  Z : Tensor4
  W : Tensor4
  dX : Tensor4
  dW : Tensor4
  b : ℕ → ℚ
  db : ℕ → ℚ

/-- The Python output-size computation `1 + int((n - f + 2*pad)/stride)`:
the float division truncates toward zero under `int`, which is exactly
`Int.tdiv`.  (For the sizes at hand the float arithmetic is exact.) -/
def pyDim (n f pad stride : ℕ) : ℤ :=
  1 + Int.tdiv ((n : ℤ) - (f : ℤ) + 2 * (pad : ℤ)) (stride : ℤ)

/-- `ConvLayer.__init__`.  The He-style random draw for `W` is not modelled
(no claim depends on its distribution); the weight tensor is a parameter.
All caches, gradients and the bias start as zeros, `dim_out` is stored. -/
def ConvLayer.init (dimIn : ℕ × ℕ × ℕ × ℕ) (f c stride pad : ℕ)
    (act : Activation) (lamb : ℚ) (W : Tensor4) : ConvLayer :=
  { m0 := dimIn.1
    hIn := dimIn.2.1
    wIn := dimIn.2.2.1
    cIn := dimIn.2.2.2
    f := f
    n_c := c
    stride := stride
    pad := pad
    dimOutH := (pyDim dimIn.2.1 f pad stride).toNat
    dimOutW := (pyDim dimIn.2.2.1 f pad stride).toNat
    activation := act
    lamb := lamb
    m := dimIn.1
    nH := (pyDim dimIn.2.1 f pad stride).toNat
    nW := (pyDim dimIn.2.2.1 f pad stride).toNat
    X := fun _ _ _ _ => 0
    Z := fun _ _ _ _ => 0
    W := W
    dX := fun _ _ _ _ => 0
    dW := fun _ _ _ _ => 0
    b := fun _ => 0
    db := fun _ => 0 }

/-- `forward(X)` where `X` has shape `(mX, hX, wX, cIn)`.
The strided view `M` has `M[p,q,r,t,b,m,0] = x_pad[t, b*stride+p, m*stride+q, r]`,
and `contract('pqrs,pqrtbmn->tbms', W, M) + b` gives
`Z[a,i,j,s] = Σ_{p,q,r} W[p,q,r,s] · x_pad[a, i*stride+p, j*stride+q, r] + b[s]`.
Returns the updated layer state (caches `X`, `Z` and the shape of `Z`)
and the activated output. -/
def forward (s : ConvLayer) (X : Tensor4) (mX hX wX : ℕ) : ConvLayer × Tensor4 :=
  let nh := (pyDim hX s.f s.pad s.stride).toNat
  let nw := (pyDim wX s.f s.pad s.stride).toNat
  let xp := padT X hX wX s.pad
  let Z : Tensor4 := fun a i j ch =>
    (∑ p ∈ Finset.range s.f, ∑ q ∈ Finset.range s.f, ∑ r ∈ Finset.range s.cIn,
      s.W p q r ch * xp a (i * s.stride + p) (j * s.stride + q) r) + s.b ch
  let out : Tensor4 :=
    match s.activation with
    | Activation.relu => fun a i j ch => max 0 (Z a i j ch)
    | Activation.none => Z
  ({ s with X := X, Z := Z, m := mX, nH := nh, nW := nw }, out)

/-- `dZ = dA * self._deriv_relu(self.Z)` — both backward paths apply the relu
derivative mask unconditionally, whatever the `activation` field holds. -/
def dZfun (s : ConvLayer) (dA : Tensor4) : Tensor4 := fun a h w ch =>
  dA a h w ch * reluDeriv (s.Z a h w ch)

/-- `pad_dZ = self.W.shape[0] - (self.pad + 1)` (as a natural number;
`backward` only proceeds when `pad + 1 ≤ f`, see `backwardGuard`). -/
def pdOf (s : ConvLayer) : ℕ := s.f - (s.pad + 1)

/-- The scratch buffer `dZ_pad` after `dZ` is written into it at the
stride-spaced positions `pad_dZ + k*stride` (both spatial axes); every other
entry of the buffer is zero (freshly allocated buffers are zeros, and reused
buffers were only ever written at the same positions). -/
def dZpad (s : ConvLayer) (dA : Tensor4) : Tensor4 := fun a y x ch =>
  if pdOf s ≤ y ∧ (y - pdOf s) % s.stride = 0 ∧ (y - pdOf s) / s.stride < s.nH ∧
     pdOf s ≤ x ∧ (x - pdOf s) % s.stride = 0 ∧ (x - pdOf s) / s.stride < s.nW then
    dZfun s dA a ((y - pdOf s) / s.stride) ((x - pdOf s) / s.stride) ch
  else 0

/-- `backward`'s input gradient: `W_rot = np.rot90(self.W, 2)` and
`contract('pqrs,bmnspq->bmnr', W_rot, M)` over the sliding-window view
`M[b,m,n,s,p,q] = dZ_pad[b, m+p, n+q, s]`, so
`dX[a,i,j,r] = Σ_{p,q,ch} W[f-1-p, f-1-q, r, ch] · dZ_pad[a, i+p, j+q, ch]`. -/
def backward_dX (s : ConvLayer) (dA : Tensor4) : Tensor4 := fun a i j r =>
  ∑ p ∈ Finset.range s.f, ∑ q ∈ Finset.range s.f, ∑ ch ∈ Finset.range s.n_c,
    s.W (s.f - 1 - p) (s.f - 1 - q) r ch * dZpad s dA a (i + p) (j + q) ch

/-- `backward`'s weight gradient before regularization:
`contract('abcd,pqsabc->pqsd', dZ, M)` over the view
`M[p,q,r,a,h,w] = X_pad[a, p + h*stride, q + w*stride, r]`. -/
def backward_dWsum (s : ConvLayer) (dA : Tensor4) : Tensor4 := fun p q r ch =>
  ∑ a ∈ Finset.range s.m, ∑ h ∈ Finset.range s.nH, ∑ w ∈ Finset.range s.nW,
    dZfun s dA a h w ch *
      padT s.X s.hIn s.wIn s.pad a (p + h * s.stride) (q + w * s.stride) r

/-- `backward`'s weight gradient including `self.lamb/self.dim_in[0]*self.W`. -/
def backward_dW (s : ConvLayer) (dA : Tensor4) : Tensor4 := fun p q r ch =>
  backward_dWsum s dA p q r ch + s.lamb / (s.m0 : ℚ) * s.W p q r ch

/-- `backward`'s bias gradient `contract('abcd->d', dZ)`. -/
def backward_db (s : ConvLayer) (dA : Tensor4) : ℕ → ℚ := fun ch =>
  ∑ a ∈ Finset.range s.m, ∑ h ∈ Finset.range s.nH, ∑ w ∈ Finset.range s.nW,
    dZfun s dA a h w ch

/-- Length of the Python slice `pd : size - pd : stride` of an axis of extent
`size` (equivalently of `0 :: stride` when `pd = 0`). -/
def ceilLen (size pd stride : ℕ) : ℕ := (size - 2 * pd + stride - 1) / stride

/-- `backward` completes without a numpy error iff the strided-slice
assignment `dZ_pad[:, pad_dZ:-pad_dZ:stride, pad_dZ:-pad_dZ:stride] = dZ`
is well-formed: `pad_dZ` must be nonnegative (`pad + 1 ≤ f`; a negative
`pad_dZ` yields an empty or wrapped slice that cannot receive `dZ`) and the
slice lengths must equal `dZ`'s spatial extents. -/
def backwardGuard (s : ConvLayer) : Prop :=
  s.pad + 1 ≤ s.f ∧
  ceilLen (s.hIn + s.f - 1) (pdOf s) s.stride = s.nH ∧
  ceilLen (s.wIn + s.f - 1) (pdOf s) s.stride = s.nW

instance backwardGuardDecidable (s : ConvLayer) : Decidable (backwardGuard s) := by
  unfold backwardGuard
  infer_instance

/-- `backward(dA)` for a 4-D `dA` of the cached `Z`'s shape: the returned
`dX` and the stored `dW`, `db`, or `none` when the call raises. -/
def backwardRes (s : ConvLayer) (dA : Tensor4) :
    Option (Tensor4 × Tensor4 × (ℕ → ℚ)) :=
  if backwardGuard s then
    some (backward_dX s dA, backward_dW s dA, backward_db s dA)
  else none

/-- numpy reshape of a 2-D array of shape `(k, mB)` into the 4-D shape
`(mB, nh, nw, nc)` (C order): the flat position of target index
`(a, h, w, ch)` is looked up row-major in the source. -/
def reshape2d4d (dA2 : ℕ → ℕ → ℚ) (mB nh nw nc : ℕ) : Tensor4 :=
  fun a h w ch =>
    dA2 ((((a * nh + h) * nw + w) * nc + ch) / mB)
        ((((a * nh + h) * nw + w) * nc + ch) % mB)

/-- `backward(dA)` in the `len(dA.shape) == 2` branch: `dA` of shape
`(k, m2)` is first reshaped via
`dA.reshape(dA.shape[1], *self.dim_out[1:])` — batch extent `m2` taken from
the trailing dimension, spatial extents from the stored `dim_out` — and the
computation proceeds exactly as in the 4-D case (the activation-derivative
mask is applied after the reshape, inside `backwardRes`). -/
def backwardFlatRes (s : ConvLayer) (dA2 : ℕ → ℕ → ℚ) (m2 : ℕ) :
    Option (Tensor4 × Tensor4 × (ℕ → ℚ)) :=
  backwardRes s (reshape2d4d dA2 m2 s.dimOutH s.dimOutW s.n_c)

/-- `conv_backward` completes without a numpy error iff the final un-padding
assignment `self.dX[:,:,:,:] = dx_pad[:, pad:-pad, pad:-pad, :]` is
well-formed (for `pad = 0` the slice `0:-0` is empty, so it fails whenever
the spatial extents are positive) and every accumulation window
`dx_pad[:, h*stride : h*stride+f, w*stride : w*stride+f, :]` lies inside the
padded buffer (a clipped window would fail to broadcast). -/
def convGuard (s : ConvLayer) : Prop :=
  (s.pad ≠ 0 ∨ (s.hIn = 0 ∧ s.wIn = 0)) ∧
  (s.nH = 0 ∨ (s.nH - 1) * s.stride + s.f ≤ s.hIn + 2 * s.pad) ∧
  (s.nW = 0 ∨ (s.nW - 1) * s.stride + s.f ≤ s.wIn + 2 * s.pad)

instance convGuardDecidable (s : ConvLayer) : Decidable (convGuard s) := by
  unfold convGuard
  infer_instance

/-- `conv_backward`'s padded input-gradient buffer after the accumulation
loops: `dx_pad = np.pad(self.dX, …)` — note it starts from the *leftover*
`self.dX`, which is not zeroed — plus, for every output position `(h, w)`
and channel, the window contribution `W[:,:,:,ch] * dZ[a,h,w,ch]`. -/
def convBackward_dxPad (s : ConvLayer) (dA : Tensor4) : Tensor4 := fun a y x r =>
  padT s.dX s.hIn s.wIn s.pad a y x r +
  ∑ h ∈ Finset.range s.nH, ∑ w ∈ Finset.range s.nW, ∑ ch ∈ Finset.range s.n_c,
    if h * s.stride ≤ y ∧ y < h * s.stride + s.f ∧
       w * s.stride ≤ x ∧ x < w * s.stride + s.f then
      s.W (y - h * s.stride) (x - w * s.stride) r ch * dZfun s dA a h w ch
    else 0

/-- `conv_backward`'s input gradient: the interior of `dx_pad`
(`dx_pad[:, pad:-pad, pad:-pad, :]`). -/
def convBackward_dX (s : ConvLayer) (dA : Tensor4) : Tensor4 := fun a i j r =>
  convBackward_dxPad s dA a (i + s.pad) (j + s.pad) r

/-- `conv_backward`'s weight gradient before regularization: for every
`(h, w, ch)`, `dW[:,:,:,ch] += Σ_a x_pad[a, h*stride:h*stride+f, …] · dZ[a,h,w,ch]`
(into a buffer zeroed at the start of the call). -/
def convBackward_dWsum (s : ConvLayer) (dA : Tensor4) : Tensor4 := fun p q r ch =>
  ∑ h ∈ Finset.range s.nH, ∑ w ∈ Finset.range s.nW, ∑ a ∈ Finset.range s.m,
    padT s.X s.hIn s.wIn s.pad a (h * s.stride + p) (w * s.stride + q) r *
      dZfun s dA a h w ch

/-- `conv_backward`'s weight gradient including `self.lamb/self.dim_in[0]*self.W`. -/
def convBackward_dW (s : ConvLayer) (dA : Tensor4) : Tensor4 := fun p q r ch =>
  convBackward_dWsum s dA p q r ch + s.lamb / (s.m0 : ℚ) * s.W p q r ch

/-- `conv_backward`'s bias gradient: `db[:,:,:,ch] += np.sum(dZ[:,h,w,ch])`
accumulated over all output positions (buffer zeroed at the start). -/
def convBackward_db (s : ConvLayer) (dA : Tensor4) : ℕ → ℚ := fun ch =>
  ∑ h ∈ Finset.range s.nH, ∑ w ∈ Finset.range s.nW, ∑ a ∈ Finset.range s.m,
    dZfun s dA a h w ch

/-- `conv_backward(dA)` for `dA` of the cached `Z`'s shape, or `none` when
the call raises. -/
def convBackwardRes (s : ConvLayer) (dA : Tensor4) :
    Option (Tensor4 × Tensor4 × (ℕ → ℚ)) :=
  if convGuard s then
    some (convBackward_dX s dA, convBackward_dW s dA, convBackward_db s dA)
  else none

/-- The buffers touched by `update_parameters`, over `ℝ` (the update divides
by `np.sqrt` of the second moment). -/
@[ext]
structure AdamState where
  W : ℕ → ℕ → ℕ → ℕ → ℝ
  dW : ℕ → ℕ → ℕ → ℕ → ℝ
  vW : ℕ → ℕ → ℕ → ℕ → ℝ
  sW : ℕ → ℕ → ℕ → ℕ → ℝ
  b : ℕ → ℝ
  db : ℕ → ℝ
  vb : ℕ → ℝ
  sb : ℕ → ℝ

/-- `update_parameters(rate, t, beta1, beta2, epsilon)`: exponential-moment
updates, bias correction by `1 - βᵢ^t`, and the parameter step
`param -= rate * v̂ / (sqrt(ŝ) + ε)`. -/
noncomputable def updateParameters (a : AdamState) (rate : ℝ) (t : ℕ)
    (beta1 beta2 epsilon : ℝ) : AdamState :=
  let vW := fun p q r c => beta1 * a.vW p q r c + (1 - beta1) * a.dW p q r c
  let vb := fun c => beta1 * a.vb c + (1 - beta1) * a.db c
  let sW := fun p q r c => beta2 * a.sW p q r c + (1 - beta2) * a.dW p q r c ^ 2
  let sb := fun c => beta2 * a.sb c + (1 - beta2) * a.db c ^ 2
  { W := fun p q r c =>
      a.W p q r c -
        rate * (vW p q r c / (1 - beta1 ^ t)) /
          (Real.sqrt (sW p q r c / (1 - beta2 ^ t)) + epsilon)
    dW := a.dW
    vW := vW
    sW := sW
    b := fun c =>
      a.b c -
        rate * (vb c / (1 - beta1 ^ t)) /
          (Real.sqrt (sb c / (1 - beta2 ^ t)) + epsilon)
    db := a.db
    vb := vb
    sb := sb }

/-- Common pointwise form both input-gradient computations reduce to: a sum
over filter offsets `(p, q)`, output channel, and output position `(h, w)` of
`W[p,q,r,ch] · dZ[a,h,w,ch]` restricted to the window-incidence condition
`i + pad = h·stride + p` (and likewise for the width axis). -/
def commonDX (s : ConvLayer) (dA : Tensor4) : Tensor4 := fun a i j r =>
  ∑ p ∈ Finset.range s.f, ∑ q ∈ Finset.range s.f, ∑ ch ∈ Finset.range s.n_c,
    ∑ h ∈ Finset.range s.nH, ∑ w ∈ Finset.range s.nW,
      if i + s.pad = h * s.stride + p ∧ j + s.pad = w * s.stride + q then
        s.W p q r ch * dZfun s dA a h w ch
      else 0

/-- All-ones 4-D tensor. -/
def onesT : Tensor4 := fun _ _ _ _ => 1

/-- All-zeros 4-D tensor. -/
def zerosT : Tensor4 := fun _ _ _ _ => 0

/-- All-ones 2-D array (a flattened gradient). -/
def onesT2 : ℕ → ℕ → ℚ := fun _ _ => 1

/-- The spec's end-to-end example layer: `input_shape=(2,4,4,1)`, `f=2`,
`C_out=1`, `stride=1`, `pad=0`, activation `'none'`, `λ=0`, `W` all ones
(bias is zero from construction). -/
def s8 : ConvLayer :=
  ConvLayer.init (2, 4, 4, 1) 2 1 1 0 Activation.none 0 onesT

/-- The example layer after `forward` on an all-ones input of shape
`(2,4,4,1)` (caches `X`, `Z` and the output shape `(2,3,3,1)`). -/
def s9 : ConvLayer := (forward s8 onesT 2 4 4).1

/-- A valid-geometry layer with `pad = 1`: `input_shape=(1,2,2,1)`, `f=2`,
`C_out=1`, `stride=1`, `pad=1`, after a forward pass on all-ones input;
output shape `(1,3,3,1)`. -/
def sV : ConvLayer :=
  (forward (ConvLayer.init (1, 2, 2, 1) 2 1 1 1 Activation.relu 0 onesT)
    onesT 1 2 2).1

/-- A tiny `activation='none'` layer (`f=1`, `pad=0`, `stride=1`, all shapes
1) whose cached `Z` is everywhere `1` (positive). -/
def sZpos : ConvLayer :=
  { m0 := 1, hIn := 1, wIn := 1, cIn := 1, f := 1, n_c := 1, stride := 1
    pad := 0, dimOutH := 1, dimOutW := 1, activation := Activation.none
    lamb := 0, m := 1, nH := 1, nW := 1, X := onesT, Z := onesT, W := onesT
    dX := zerosT, dW := zerosT, b := fun _ => 0, db := fun _ => 0 }

/-- The same layer as `sZpos` except the cached `Z` is everywhere `-1`. -/
def sZneg : ConvLayer := { sZpos with Z := fun _ _ _ _ => -1 }

/-- A `pad = 1` layer (`input_shape=(1,2,2,1)`, `f=2`, `stride=1`) with
cached all-ones `X` and `Z`, all-ones `W`, and zero gradient buffers —
the state right after a first successful backward pass would have a
nonzero `dX`; here `dX` is still zero. -/
def s3zero : ConvLayer :=
  { m0 := 1, hIn := 2, wIn := 2, cIn := 1, f := 2, n_c := 1, stride := 1
    pad := 1, dimOutH := 3, dimOutW := 3, activation := Activation.relu
    lamb := 0, m := 1, nH := 3, nW := 3, X := onesT, Z := onesT, W := onesT
    dX := zerosT, dW := zerosT, b := fun _ => 0, db := fun _ => 0 }

/-- The same layer as `s3zero` but with a leftover `dX ≡ 7` from an earlier
backward call. -/
def s3left : ConvLayer := { s3zero with dX := fun _ _ _ _ => 7 }

/-- A concrete `AdamState` with zero gradients and zero moment buffers
(exactly the buffers of a freshly constructed layer). -/
def adamEx : AdamState :=
  { W := fun _ _ _ _ => 5, dW := fun _ _ _ _ => 0, vW := fun _ _ _ _ => 0
    sW := fun _ _ _ _ => 0, b := fun _ => 2, db := fun _ => 0
    vb := fun _ => 0, sb := fun _ => 0 }

/-- Collapsing a sum of point-masses over a shifted window:
`Σ_{p<f} [t = a + p] · g p = [a ≤ t < a + f] · g (t - a)`. -/
lemma sum_ite_eq_window (f t a : ℕ) (g : ℕ → ℚ) :
    (∑ p ∈ Finset.range f, if t = a + p then g p else 0) =
      if a ≤ t ∧ t < a + f then g (t - a) else 0 := by
  by_cases h : a ≤ t ∧ t < a + f
  · rw [if_pos h, Finset.sum_eq_single (t - a)]
    · rw [if_pos (by omega)]
    · intro p hp hne
      rw [if_neg]
      intro hc
      exact hne (by omega)
    · intro hmem
      exact absurd (Finset.mem_range.mpr (by omega)) hmem
  · rw [if_neg h]
    refine Finset.sum_eq_zero fun p hp => ?_
    rw [if_neg]
    intro hc
    have hp' := Finset.mem_range.mp hp
    exact h (by omega)

/-- Collapsing a sum of point-masses over stride-spaced positions:
`Σ_{h<n} [t = pd + h·stride] · g h` is `g ((t-pd)/stride)` exactly when `t`
is one of the positions. -/
lemma sum_ite_eq_stride (n stride pd t : ℕ) (hst : 1 ≤ stride) (g : ℕ → ℚ) :
    (∑ h ∈ Finset.range n, if t = pd + h * stride then g h else 0) =
      if pd ≤ t ∧ (t - pd) % stride = 0 ∧ (t - pd) / stride < n then
        g ((t - pd) / stride) else 0 := by
  by_cases h : pd ≤ t ∧ (t - pd) % stride = 0 ∧ (t - pd) / stride < n
  · obtain ⟨h1, h2, h3⟩ := h
    have hdvd : stride ∣ (t - pd) := Nat.dvd_of_mod_eq_zero h2
    have hmul : (t - pd) / stride * stride = t - pd := Nat.div_mul_cancel hdvd
    rw [if_pos ⟨h1, h2, h3⟩, Finset.sum_eq_single ((t - pd) / stride)]
    · rw [if_pos (by omega)]
    · intro b hb hne
      rw [if_neg]
      intro hc
      apply hne
      have hb2 : t - pd = b * stride := by omega
      have hq : (t - pd) / stride = b * stride / stride := by rw [hb2]
      rw [Nat.mul_div_cancel _ (by omega : 0 < stride)] at hq
      exact hq.symm
    · intro hmem
      exact absurd (Finset.mem_range.mpr h3) hmem
  · rw [if_neg h]
    refine Finset.sum_eq_zero fun b hb => ?_
    rw [if_neg]
    intro hc
    have hb' := Finset.mem_range.mp hb
    have hb2 : t - pd = b * stride := by omega
    apply h
    refine ⟨by omega, ?_, ?_⟩
    · rw [hb2]
      exact Nat.mul_mod_left b stride
    · rw [hb2, Nat.mul_div_cancel _ (by omega : 0 < stride)]
      exact hb'

/-- Rotating the first summation index of a triple sum to the innermost
position. -/
lemma sum_comm3 (s1 s2 s3 : Finset ℕ) (F : ℕ → ℕ → ℕ → ℚ) :
    (∑ x ∈ s1, ∑ y ∈ s2, ∑ z ∈ s3, F x y z) =
      ∑ y ∈ s2, ∑ z ∈ s3, ∑ x ∈ s1, F x y z := by
  rw [Finset.sum_comm]
  exact Finset.sum_congr rfl fun y _ => Finset.sum_comm

/-- Rotating the first summation index of a quintuple sum to the innermost
position. -/
lemma sum_comm5 (s1 s2 s3 s4 s5 : Finset ℕ) (F : ℕ → ℕ → ℕ → ℕ → ℕ → ℚ) :
    (∑ x ∈ s1, ∑ y ∈ s2, ∑ z ∈ s3, ∑ u ∈ s4, ∑ v ∈ s5, F x y z u v) =
      ∑ y ∈ s2, ∑ z ∈ s3, ∑ u ∈ s4, ∑ v ∈ s5, ∑ x ∈ s1, F x y z u v := by
  rw [Finset.sum_comm]
  refine Finset.sum_congr rfl fun y _ => ?_
  rw [Finset.sum_comm]
  refine Finset.sum_congr rfl fun z _ => ?_
  rw [Finset.sum_comm]
  refine Finset.sum_congr rfl fun u _ => ?_
  exact Finset.sum_comm

/-- `commonDX` with the summation order rearranged to
`(h, w, channel, p, q)` — the order of the naive loops. -/
lemma commonDX_rotate (s : ConvLayer) (dA : Tensor4) (a i j r : ℕ) :
    commonDX s dA a i j r =
      ∑ h ∈ Finset.range s.nH, ∑ w ∈ Finset.range s.nW,
        ∑ ch ∈ Finset.range s.n_c, ∑ p ∈ Finset.range s.f, ∑ q ∈ Finset.range s.f,
          if i + s.pad = h * s.stride + p ∧ j + s.pad = w * s.stride + q then
            s.W p q r ch * dZfun s dA a h w ch
          else 0 := by
  unfold commonDX
  rw [sum_comm5, sum_comm5, sum_comm3]

/-- `1 + int((n - f + 2*pad)/stride)` agrees with the natural-number floor
formula on valid geometry. -/
lemma pyDim_toNat (n f pad stride : ℕ) (hf : f ≤ n + 2 * pad) :
    (pyDim n f pad stride).toNat = (n + 2 * pad - f) / stride + 1 := by
  unfold pyDim
  have h1 : ((n : ℤ) - (f : ℤ) + 2 * (pad : ℤ)) = ((n + 2 * pad - f : ℕ) : ℤ) := by
    omega
  rw [h1]
  have h2 : Int.tdiv ((n + 2 * pad - f : ℕ) : ℤ) ((stride : ℕ) : ℤ) =
      (((n + 2 * pad - f) / stride : ℕ) : ℤ) := rfl
  rw [h2]
  have h3 : (0 : ℤ) ≤ (((n + 2 * pad - f) / stride : ℕ) : ℤ) := by
    exact_mod_cast Nat.zero_le _
  omega

/-- On valid geometry with `pad + 1 ≤ f` the strided-slice length of the
`dZ_pad` embedding equals the output extent `(n + 2·pad − f)/stride + 1`. -/
lemma ceilLen_eq (n f pad stride : ℕ) (hst : 1 ≤ stride) (hpf : pad + 1 ≤ f)
    (hf : f ≤ n + 2 * pad) :
    ceilLen (n + f - 1) (f - (pad + 1)) stride = (n + 2 * pad - f) / stride + 1 := by
  unfold ceilLen
  have h1 : n + f - 1 - 2 * (f - (pad + 1)) + stride - 1 =
      (n + 2 * pad - f) + stride := by omega
  rw [h1, Nat.add_div_right _ (by omega : 0 < stride)]

/-- `backward` completes on any layer state with consistent cached geometry
and `pad + 1 ≤ f`. -/
lemma backwardGuard_holds (s : ConvLayer) (hst : 1 ≤ s.stride)
    (hpf : s.pad + 1 ≤ s.f)
    (hfH : s.f ≤ s.hIn + 2 * s.pad) (hfW : s.f ≤ s.wIn + 2 * s.pad)
    (hnH : s.nH = (s.hIn + 2 * s.pad - s.f) / s.stride + 1)
    (hnW : s.nW = (s.wIn + 2 * s.pad - s.f) / s.stride + 1) :
    backwardGuard s := by
  refine ⟨hpf, ?_, ?_⟩
  · rw [hnH]
    exact ceilLen_eq s.hIn s.f s.pad s.stride hst hpf hfH
  · rw [hnW]
    exact ceilLen_eq s.wIn s.f s.pad s.stride hst hpf hfW

/-- `conv_backward` completes on any layer state with consistent cached
geometry and `pad ≥ 1`. -/
lemma convGuard_holds (s : ConvLayer) (_hst : 1 ≤ s.stride) (hp : 1 ≤ s.pad)
    (hfH : s.f ≤ s.hIn + 2 * s.pad) (hfW : s.f ≤ s.wIn + 2 * s.pad)
    (hnH : s.nH = (s.hIn + 2 * s.pad - s.f) / s.stride + 1)
    (hnW : s.nW = (s.wIn + 2 * s.pad - s.f) / s.stride + 1) :
    convGuard s := by
  refine ⟨Or.inl (by omega), Or.inr ?_, Or.inr ?_⟩
  · have h1 : s.nH - 1 = (s.hIn + 2 * s.pad - s.f) / s.stride := by
      rw [hnH]
      exact Nat.add_sub_cancel _ _
    rw [h1]
    exact Nat.le_trans
      (Nat.add_le_add_right (Nat.div_mul_le_self _ _) s.f) (by omega)
  · have h1 : s.nW - 1 = (s.wIn + 2 * s.pad - s.f) / s.stride := by
      rw [hnW]
      exact Nat.add_sub_cancel _ _
    rw [h1]
    exact Nat.le_trans
      (Nat.add_le_add_right (Nat.div_mul_le_self _ _) s.f) (by omega)

/-- The `dZ_pad` buffer entry as a double sum of point-masses over the
embedded positions. -/
lemma dZpad_eq_sum (s : ConvLayer) (dA : Tensor4) (hst : 1 ≤ s.stride)
    (a y x ch : ℕ) :
    dZpad s dA a y x ch =
      ∑ h ∈ Finset.range s.nH, ∑ w ∈ Finset.range s.nW,
        if y = pdOf s + h * s.stride ∧ x = pdOf s + w * s.stride then
          dZfun s dA a h w ch
        else 0 := by
  have step1 : ∀ h : ℕ,
      (∑ w ∈ Finset.range s.nW,
        if y = pdOf s + h * s.stride ∧ x = pdOf s + w * s.stride then
          dZfun s dA a h w ch else 0) =
      if y = pdOf s + h * s.stride then
        (∑ w ∈ Finset.range s.nW,
          if x = pdOf s + w * s.stride then dZfun s dA a h w ch else 0)
      else 0 := by
    intro h
    by_cases hy : y = pdOf s + h * s.stride
    · simp only [hy, true_and, if_true]
    · rw [if_neg hy]
      refine Finset.sum_eq_zero fun w _ => ?_
      exact if_neg fun hc => hy hc.1
  rw [Finset.sum_congr rfl fun h _ => step1 h]
  rw [sum_ite_eq_stride s.nH s.stride (pdOf s) y hst]
  rw [sum_ite_eq_stride s.nW s.stride (pdOf s) x hst]
  unfold dZpad
  split_ifs <;> first | rfl | (exfalso; tauto)

/-- The optimized input gradient equals the common windowed form: reflecting
the filter indices undoes the 180° kernel rotation, and expanding the
`dZ_pad` lookup into point-masses turns the transposed convolution into the
window-incidence sum. -/
lemma backward_dX_eq_common (s : ConvLayer) (dA : Tensor4) (hst : 1 ≤ s.stride)
    (hpf : s.pad + 1 ≤ s.f) (a i j r : ℕ) :
    backward_dX s dA a i j r = commonDX s dA a i j r := by
  unfold backward_dX commonDX
  calc
    (∑ p ∈ Finset.range s.f, ∑ q ∈ Finset.range s.f, ∑ ch ∈ Finset.range s.n_c,
        s.W (s.f - 1 - p) (s.f - 1 - q) r ch * dZpad s dA a (i + p) (j + q) ch)
      = ∑ p ∈ Finset.range s.f, ∑ q ∈ Finset.range s.f, ∑ ch ∈ Finset.range s.n_c,
          s.W (s.f - 1 - (s.f - 1 - p)) (s.f - 1 - q) r ch *
            dZpad s dA a (i + (s.f - 1 - p)) (j + q) ch :=
        (Finset.sum_range_reflect _ _).symm
    _ = ∑ p ∈ Finset.range s.f, ∑ q ∈ Finset.range s.f, ∑ ch ∈ Finset.range s.n_c,
          s.W (s.f - 1 - (s.f - 1 - p)) (s.f - 1 - (s.f - 1 - q)) r ch *
            dZpad s dA a (i + (s.f - 1 - p)) (j + (s.f - 1 - q)) ch := by
        refine Finset.sum_congr rfl fun p _ => ?_
        exact (Finset.sum_range_reflect _ _).symm
    _ = ∑ p ∈ Finset.range s.f, ∑ q ∈ Finset.range s.f, ∑ ch ∈ Finset.range s.n_c,
          s.W p q r ch * dZpad s dA a (i + (s.f - 1 - p)) (j + (s.f - 1 - q)) ch := by
        refine Finset.sum_congr rfl fun p hp => Finset.sum_congr rfl fun q hq =>
          Finset.sum_congr rfl fun ch _ => ?_
        have hp' := Finset.mem_range.mp hp
        have hq' := Finset.mem_range.mp hq
        rw [show s.f - 1 - (s.f - 1 - p) = p by omega,
          show s.f - 1 - (s.f - 1 - q) = q by omega]
    _ = ∑ p ∈ Finset.range s.f, ∑ q ∈ Finset.range s.f, ∑ ch ∈ Finset.range s.n_c,
          ∑ h ∈ Finset.range s.nH, ∑ w ∈ Finset.range s.nW,
            if i + s.pad = h * s.stride + p ∧ j + s.pad = w * s.stride + q then
              s.W p q r ch * dZfun s dA a h w ch
            else 0 := by
        refine Finset.sum_congr rfl fun p hp => Finset.sum_congr rfl fun q hq =>
          Finset.sum_congr rfl fun ch _ => ?_
        have hp' := Finset.mem_range.mp hp
        have hq' := Finset.mem_range.mp hq
        rw [dZpad_eq_sum s dA hst, Finset.mul_sum]
        refine Finset.sum_congr rfl fun h _ => ?_
        rw [Finset.mul_sum]
        refine Finset.sum_congr rfl fun w _ => ?_
        rw [mul_ite, mul_zero]
        refine if_congr ?_ rfl rfl
        unfold pdOf
        constructor
        · rintro ⟨h1, h2⟩
          exact ⟨by omega, by omega⟩
        · rintro ⟨h1, h2⟩
          exact ⟨by omega, by omega⟩

/-- The naive input gradient (with no leftover `dX`) equals the common
windowed form: collapsing the filter-offset point-masses recovers the
naive per-window accumulation condition. -/
lemma conv_dX_eq_common (s : ConvLayer) (dA : Tensor4)
    (hdX : ∀ a' i' j' r', s.dX a' i' j' r' = 0) (a i j r : ℕ) :
    convBackward_dX s dA a i j r = commonDX s dA a i j r := by
  rw [commonDX_rotate]
  unfold convBackward_dX convBackward_dxPad
  have hz : padT s.dX s.hIn s.wIn s.pad a (i + s.pad) (j + s.pad) r = 0 := by
    unfold padT
    split_ifs
    · exact hdX _ _ _ _
    · rfl
  rw [hz, zero_add]
  refine Finset.sum_congr rfl fun h _ => Finset.sum_congr rfl fun w _ =>
    Finset.sum_congr rfl fun ch _ => ?_
  have stepA : ∀ p : ℕ,
      (∑ q ∈ Finset.range s.f,
        if i + s.pad = h * s.stride + p ∧ j + s.pad = w * s.stride + q then
          s.W p q r ch * dZfun s dA a h w ch
        else 0) =
      if i + s.pad = h * s.stride + p then
        (∑ q ∈ Finset.range s.f,
          if j + s.pad = w * s.stride + q then
            s.W p q r ch * dZfun s dA a h w ch
          else 0)
      else 0 := by
    intro p
    by_cases hp : i + s.pad = h * s.stride + p
    · simp only [hp, true_and, if_true]
    · rw [if_neg hp]
      refine Finset.sum_eq_zero fun q _ => ?_
      exact if_neg fun hc => hp hc.1
  rw [Finset.sum_congr rfl fun p _ => stepA p]
  rw [Finset.sum_congr rfl fun p _ =>
    if_congr Iff.rfl (sum_ite_eq_window s.f (j + s.pad) (w * s.stride) _) rfl]
  rw [sum_ite_eq_window s.f (i + s.pad) (h * s.stride)]
  split_ifs <;> first | rfl | (exfalso; tauto)

/-- The two weight-gradient contractions are the same sum in a different
order. -/
lemma dW_sums_eq (s : ConvLayer) (dA : Tensor4) (p q r ch : ℕ) :
    backward_dWsum s dA p q r ch = convBackward_dWsum s dA p q r ch := by
  unfold backward_dWsum convBackward_dWsum
  rw [sum_comm3]
  refine Finset.sum_congr rfl fun h _ => Finset.sum_congr rfl fun w _ =>
    Finset.sum_congr rfl fun a _ => ?_
  rw [Nat.add_comm p (h * s.stride), Nat.add_comm q (w * s.stride),
    mul_comm (dZfun s dA a h w ch)]

/-- The two bias-gradient sums are the same sum in a different order. -/
lemma db_sums_eq (s : ConvLayer) (dA : Tensor4) (ch : ℕ) :
    backward_db s dA ch = convBackward_db s dA ch := by
  unfold backward_db convBackward_db
  exact sum_comm3 _ _ _ _

/-- C5: for every valid construction input, the output spatial dimensions
stored in `dim_out` at construction and recomputed inside `forward` both
equal `⌊(H_in − f + 2·pad)/stride⌋ + 1` (same formula for width). -/
theorem dim_out_formula (dimIn : ℕ × ℕ × ℕ × ℕ) (f c stride pad : ℕ)
    (act : Activation) (lamb : ℚ) (W0 : Tensor4)
    (s : ConvLayer) (X : Tensor4) (mX hX wX : ℕ)
    (hH : f ≤ dimIn.2.1 + 2 * pad) (hW : f ≤ dimIn.2.2.1 + 2 * pad)
    (hfX : s.f ≤ hX + 2 * s.pad) (hfY : s.f ≤ wX + 2 * s.pad) :
    ((ConvLayer.init dimIn f c stride pad act lamb W0).dimOutH
        = (dimIn.2.1 + 2 * pad - f) / stride + 1 ∧
      (ConvLayer.init dimIn f c stride pad act lamb W0).dimOutW
        = (dimIn.2.2.1 + 2 * pad - f) / stride + 1) ∧
    ((forward s X mX hX wX).1.nH = (hX + 2 * s.pad - s.f) / s.stride + 1 ∧
      (forward s X mX hX wX).1.nW = (wX + 2 * s.pad - s.f) / s.stride + 1) := by
  refine ⟨⟨?_, ?_⟩, ?_, ?_⟩
  · exact pyDim_toNat _ _ _ _ hH
  · exact pyDim_toNat _ _ _ _ hW
  · exact pyDim_toNat _ _ _ _ hfX
  · exact pyDim_toNat _ _ _ _ hfY

/-- Witness for `dim_out_formula` at the spec's example geometry. -/
theorem dim_out_formula_witness :
    (2 : ℕ) ≤ 4 + 2 * 0 ∧
    (ConvLayer.init (2, 4, 4, 1) 2 1 1 0 Activation.none 0 onesT).dimOutH
      = (4 + 2 * 0 - 2) / 1 + 1 :=
  ⟨by decide,
    ((dim_out_formula (2, 4, 4, 1) 2 1 1 0 Activation.none 0 onesT s8 onesT
      2 4 4 (by decide) (by decide) (by decide) (by decide)).1).1⟩

/-- C10: `conv_backward` has the implicit precondition `pad ≥ 1`: with
`pad = 0` (and a positive input height) the final un-padding slice is empty
and the call raises instead of returning; with `pad ≥ 1` and consistent
geometry the slice has exactly the shape of `dX` and the call returns. -/
theorem conv_backward_pad_precondition (s : ConvLayer) (dA : Tensor4)
    (hH : 0 < s.hIn) (hst : 1 ≤ s.stride)
    (hfH : s.f ≤ s.hIn + 2 * s.pad) (hfW : s.f ≤ s.wIn + 2 * s.pad)
    (hnH : s.nH = (s.hIn + 2 * s.pad - s.f) / s.stride + 1)
    (hnW : s.nW = (s.wIn + 2 * s.pad - s.f) / s.stride + 1) :
    (s.pad = 0 → convBackwardRes s dA = none) ∧
    (1 ≤ s.pad → ∃ o, convBackwardRes s dA = some o) := by
  constructor
  · intro hp
    unfold convBackwardRes
    rw [if_neg]
    intro hg
    rcases hg.1 with h | h
    · exact h hp
    · omega
  · intro hp
    refine ⟨(convBackward_dX s dA, convBackward_dW s dA, convBackward_db s dA), ?_⟩
    unfold convBackwardRes
    rw [if_pos (convGuard_holds s hst hp hfH hfW hnH hnW)]

/-- Witness for `conv_backward_pad_precondition` on the `pad = 0` example
layer. -/
theorem conv_backward_pad_precondition_witness :
    s9.pad = 0 ∧ convBackwardRes s9 onesT = none := by
  have h := conv_backward_pad_precondition s9 onesT (by decide) (by decide)
    (by decide) (by decide) (by decide) (by decide)
  exact ⟨rfl, h.1 rfl⟩

/-- C1 counterexample: on the spec's own `pad = 0` example state the
optimized `backward` returns but the naive `conv_backward` raises, so the
two paths do not produce equal `dX`, `dW`, `db` on every layer state. -/
theorem conv_backward_pad_zero_mismatch :
    convBackwardRes s9 onesT = none ∧ (backwardRes s9 onesT).isSome = true := by
  constructor
  · unfold convBackwardRes
    rw [if_neg (by decide)]
  · unfold backwardRes
    rw [if_pos (by decide)]
    rfl

/-- C1 (amended): on every layer state with consistent cached geometry,
`1 ≤ pad` and `pad + 1 ≤ f` (so that both paths complete) and zero leftover
`dX`, and every `dA` of the cached output shape, `backward` and
`conv_backward` both return and produce identical `dX`, `dW` and `db`
(exact equality in the exact-arithmetic model). -/
theorem backward_eq_conv_backward_of_valid (s : ConvLayer) (dA : Tensor4)
    (hst : 1 ≤ s.stride) (hp : 1 ≤ s.pad) (hpf : s.pad + 1 ≤ s.f)
    (hfH : s.f ≤ s.hIn + 2 * s.pad) (hfW : s.f ≤ s.wIn + 2 * s.pad)
    (hnH : s.nH = (s.hIn + 2 * s.pad - s.f) / s.stride + 1)
    (hnW : s.nW = (s.wIn + 2 * s.pad - s.f) / s.stride + 1)
    (hdX : ∀ a i j r, s.dX a i j r = 0) :
    backwardRes s dA =
        some (backward_dX s dA, backward_dW s dA, backward_db s dA) ∧
    convBackwardRes s dA =
        some (convBackward_dX s dA, convBackward_dW s dA, convBackward_db s dA) ∧
    (∀ a i j r, backward_dX s dA a i j r = convBackward_dX s dA a i j r) ∧
    (∀ p q r ch, backward_dW s dA p q r ch = convBackward_dW s dA p q r ch) ∧
    (∀ ch, backward_db s dA ch = convBackward_db s dA ch) := by
  refine ⟨?_, ?_, ?_, ?_, ?_⟩
  · unfold backwardRes
    rw [if_pos (backwardGuard_holds s hst hpf hfH hfW hnH hnW)]
  · unfold convBackwardRes
    rw [if_pos (convGuard_holds s hst hp hfH hfW hnH hnW)]
  · intro a i j r
    rw [backward_dX_eq_common s dA hst hpf, conv_dX_eq_common s dA hdX]
  · intro p q r ch
    unfold backward_dW convBackward_dW
    rw [dW_sums_eq]
  · exact db_sums_eq s dA

/-- Witness for `backward_eq_conv_backward_of_valid` on a concrete `pad = 1`
layer after a forward pass. -/
theorem backward_eq_conv_backward_of_valid_witness :
    1 ≤ sV.pad ∧
    (∀ ch, backward_db sV onesT ch = convBackward_db sV onesT ch) := by
  have h := backward_eq_conv_backward_of_valid sV onesT (by decide) (by decide)
    (by decide) (by decide) (by decide) (by decide) (by decide)
    (fun a i j r => rfl)
  exact ⟨by decide, h.2.2.2.2⟩

/-- C2 counterexample: the layer `sZneg` has activation `'none'`, yet its
backward gradients vanish because the cached `Z` is negative, while the
identical layer with positive `Z` (`sZpos`) gets a nonzero gradient from
the same all-ones `dA`: the intermediate `dZ` is not `dA`, and the returned
gradients do depend on the sign of the cached `Z`. -/
theorem backward_none_depends_on_Z_sign :
    sZneg.activation = Activation.none ∧
    dZfun sZneg onesT 0 0 0 0 = 0 ∧ onesT 0 0 0 0 = 1 ∧
    (backwardRes sZneg onesT).isSome = true ∧
    backward_db sZneg onesT 0 = 0 ∧ backward_db sZpos onesT 0 = 1 := by
  refine ⟨rfl, by with_unfolding_all rfl, rfl, ?_, by with_unfolding_all rfl,
    by with_unfolding_all rfl⟩
  unfold backwardRes
  rw [if_pos (by decide)]
  rfl

/-- C2 (amended): both backward paths form `dZ = dA · 1[Z>0]` whatever the
activation field holds — the relu-derivative mask is applied
unconditionally — so their results are entirely independent of the
activation setting (and for `'none'` they do depend on the sign of the
cached `Z`, as the counterexample shows). -/
theorem backward_activation_irrelevant (s : ConvLayer) (act : Activation)
    (dA : Tensor4) :
    (∀ a h w ch, dZfun s dA a h w ch = dA a h w ch * reluDeriv (s.Z a h w ch)) ∧
    dZfun { s with activation := act } dA = dZfun s dA ∧
    backwardRes { s with activation := act } dA = backwardRes s dA ∧
    convBackwardRes { s with activation := act } dA = convBackwardRes s dA :=
  ⟨fun _ _ _ _ => rfl, rfl, rfl, rfl⟩

/-- C3 (code bug in `conv_backward`): `conv_backward` pads the leftover
`self.dX` and accumulates into it, so its returned `dX` depends on the
gradient left by an earlier call — on `s3left` (leftover `dX ≡ 7`) the
entry is `11 = 7 + 4`, on the identical state with zero leftover it is the
true gradient `4`.  `backward` is unaffected by the leftover buffers. -/
theorem conv_backward_dX_accumulates :
    (convBackwardRes s3left onesT).isSome = true ∧
    convBackward_dX s3left onesT 0 0 0 0 = 11 ∧
    convBackward_dX s3zero onesT 0 0 0 0 = 4 ∧
    backwardRes s3left onesT = backwardRes s3zero onesT := by
  refine ⟨?_, by with_unfolding_all rfl, by with_unfolding_all rfl, rfl⟩
  unfold convBackwardRes
  rw [if_pos (by decide)]
  rfl

/-- C4: a 2-D `dA` whose trailing dimension is the batch size is reshaped
to `(m, H_out, W_out, C_out)` — batch from the trailing dimension, spatial
extents from the stored `dim_out` — before the activation derivative is
applied, and the gradient computation coincides with passing the reshaped
4-D gradient directly. -/
theorem backward_flat_reshape_eq (s : ConvLayer) (dA2 : ℕ → ℕ → ℚ) (m2 : ℕ)
    (hm : m2 = s.m) (hH : s.dimOutH = s.nH) (hW : s.dimOutW = s.nW) :
    backwardFlatRes s dA2 m2 =
      backwardRes s (reshape2d4d dA2 s.m s.nH s.nW s.n_c) := by
  unfold backwardFlatRes
  rw [hm, hH, hW]

/-- Witness for `backward_flat_reshape_eq` on the example layer. -/
theorem backward_flat_reshape_eq_witness :
    backwardFlatRes s9 onesT2 2 =
      backwardRes s9 (reshape2d4d onesT2 s9.m s9.nH s9.nW s9.n_c) :=
  backward_flat_reshape_eq s9 onesT2 2 (by decide) (by decide) (by decide)

/-- C6: in both backward paths the weight gradient adds the regularization
term `(λ/m)·W` with `m` the construction-time batch dimension `dim_in[0]`
(here `m0`), a fixed configuration constant — also on states whose current
batch size `m'` differs from `m0`. -/
theorem dW_regularization_term (s : ConvLayer) (m' : ℕ) (dA : Tensor4)
    (p q r ch : ℕ) :
    backward_dW { s with m := m' } dA p q r ch =
        backward_dWsum { s with m := m' } dA p q r ch +
          s.lamb / (s.m0 : ℚ) * s.W p q r ch ∧
    convBackward_dW { s with m := m' } dA p q r ch =
        convBackward_dWsum { s with m := m' } dA p q r ch +
          s.lamb / (s.m0 : ℚ) * s.W p q r ch :=
  ⟨rfl, rfl⟩

/-- C7: with `dW = 0`, `db = 0` and all four moment buffers zero (a freshly
constructed layer), `update_parameters` returns the state unchanged — the
moments stay zero, the bias-corrected estimates are zero, and the applied
step is exactly zero — for any rate, step index and hyper-parameters, and
hence any sequence of such calls (e.g. with increasing `t`) leaves `W` and
`b` exactly unchanged.  (In the exact model `0 / x = 0` even for `x = 0`;
numpy would produce NaN only in the degenerate case `ε = 0`.) -/
theorem adam_zero_gradient_fixed (a : AdamState)
    (hdW : ∀ p q r c, a.dW p q r c = 0) (hdb : ∀ c, a.db c = 0)
    (hvW : ∀ p q r c, a.vW p q r c = 0) (hvb : ∀ c, a.vb c = 0)
    (hsW : ∀ p q r c, a.sW p q r c = 0) (hsb : ∀ c, a.sb c = 0) :
    (∀ (rate : ℝ) (t : ℕ) (beta1 beta2 epsilon : ℝ),
        updateParameters a rate t beta1 beta2 epsilon = a) ∧
    (∀ (beta1 beta2 epsilon : ℝ) (calls : List (ℝ × ℕ)),
        calls.foldl
          (fun st c => updateParameters st c.1 c.2 beta1 beta2 epsilon) a
          = a) := by
  have single : ∀ (rate : ℝ) (t : ℕ) (beta1 beta2 epsilon : ℝ),
      updateParameters a rate t beta1 beta2 epsilon = a := by
    intro rate t beta1 beta2 epsilon
    unfold updateParameters
    ext
    all_goals simp [hdW, hdb, hvW, hvb, hsW, hsb]
  refine ⟨single, ?_⟩
  intro beta1 beta2 epsilon calls
  induction calls with
  | nil => rfl
  | cons c cs ih =>
    rw [List.foldl_cons, single c.1 c.2 beta1 beta2 epsilon]
    exact ih

/-- Witness for `adam_zero_gradient_fixed` on a concrete zero-moment
state. -/
theorem adam_zero_gradient_fixed_witness :
    updateParameters adamEx 1 3 (9 / 10) (999 / 1000) (1 / 100000000) = adamEx :=
  (adam_zero_gradient_fixed adamEx (fun _ _ _ _ => rfl) (fun _ => rfl)
    (fun _ _ _ _ => rfl) (fun _ => rfl) (fun _ _ _ _ => rfl)
    (fun _ => rfl)).1 1 3 (9 / 10) (999 / 1000) (1 / 100000000)

/-- C8: on the example layer (`input_shape=(2,4,4,1)`, `f=2`, `C_out=1`,
`stride=1`, `pad=0`, activation `'none'`, all-ones `W`, zero `b`),
`forward` on an all-ones input produces output shape `(2,3,3,1)` and every
entry equals `4 = f·f·C_in`. -/
theorem forward_all_ones_value :
    (forward s8 onesT 2 4 4).1.nH = 3 ∧ (forward s8 onesT 2 4 4).1.nW = 3 ∧
    ∀ a i j ch, a < 2 → i < 3 → j < 3 → ch < 1 →
      (forward s8 onesT 2 4 4).2 a i j ch = 4 := by
  refine ⟨by decide, by decide, ?_⟩
  intro a i j ch ha hi hj hch
  interval_cases a <;> interval_cases i <;> interval_cases j <;>
    interval_cases ch <;> with_unfolding_all rfl

/-- Witness for `forward_all_ones_value` at one output entry. -/
theorem forward_all_ones_value_witness :
    (forward s8 onesT 2 4 4).2 1 2 2 0 = 4 :=
  forward_all_ones_value.2.2 1 2 2 0 (by decide) (by decide) (by decide)
    (by decide)

/-- C9: on the same example layer after the all-ones forward pass, the
backward call with all-ones `dA` of the output shape returns, and every
channel entry of `db` equals `m·H_out·W_out = 2·3·3 = 18`. -/
theorem backward_all_ones_db :
    (backwardRes s9 onesT).isSome = true ∧
    ∀ ch, ch < 1 → backward_db s9 onesT ch = 18 := by
  constructor
  · unfold backwardRes
    rw [if_pos (by decide)]
    rfl
  · intro ch hch
    interval_cases ch
    with_unfolding_all rfl

/-- Witness for `backward_all_ones_db` at the only channel. -/
theorem backward_all_ones_db_witness : backward_db s9 onesT 0 = 18 :=
  backward_all_ones_db.2 0 (by decide)
